import Mathlib

/-!
Verification of the lint-output aggregation scripts `analyze-lint.py` and
`analyze-lint2.py`.  Text is modelled as `List Char`; each Python regular
expression used by the scripts is fixed, so it is embedded as the
deterministic parse it denotes (each greedy/lazy choice of the pattern is
forced, as argued in the comments next to each definition).
-/

namespace LintAnalysis

abbrev Str := List Char

/-- Python `\s` for the ASCII range (the scripts only ever see ASCII lint output). -/
def isWs (c : Char) : Bool :=
  c = ' ' || c = '\t' || c = '\n' || c = '\r' || c = '\x0b' || c = '\x0c'

/-- Python `\w` for the ASCII range. -/
def isWordChar (c : Char) : Bool := c.isAlphanum || c = '_'

/-- A character admitted inside a rule identifier component, `[\w-]`. -/
def isRuleChar (c : Char) : Bool := isWordChar c || c = '-'

/-- `leadsWith pat s` holds when `pat` is an initial run of `s`. -/
def leadsWith : Str → Str → Bool
  | [], _ => true
  | _ :: _, [] => false
  | a :: as, b :: bs => a = b && leadsWith as bs

/-- Python `str.strip()` (ASCII whitespace). -/
def strip (l : Str) : Str :=
  ((l.dropWhile isWs).reverse.dropWhile isWs).reverse

/-- Python `text.split(sep)` for a one-character separator: keeps empty pieces,
and yields `[[]]` on empty input. -/
def splitChar (sep : Char) : Str → List Str
  | [] => [[]]
  | c :: rest =>
    match splitChar sep rest with
    | [] => [[]]
    | s :: ss => if c = sep then [] :: s :: ss else (c :: s) :: ss

/-- Full match of `@[\w-]+/[\w-]+` against a candidate rule identifier.
Both `[\w-]+` groups are greedy; since `/` and end-of-string are not rule
characters, backtracking never changes the outcome. -/
def matchRule (r : Str) : Bool :=
  match r with
  | '@' :: rest =>
    !(rest.takeWhile isRuleChar).isEmpty &&
      (match rest.dropWhile isRuleChar with
       | '/' :: rest2 =>
         !(rest2.takeWhile isRuleChar).isEmpty &&
           (rest2.dropWhile isRuleChar).isEmpty
       | _ => false)
  | _ => false

/-- Match of the trailing `\s+(.+?)\s+(@[\w-]+/[\w-]+)$` of both finding
regexes against the text that follows the severity keyword, returning the
`message` and `rule` groups.

Because the rule group contains no whitespace and must reach `$` right after
a `\s+`, the rule is exactly the maximal whitespace-free suffix (start `k`).
The leading `\s+` is greedy but must leave room for a non-empty lazy message
and a non-empty `\s+` before position `k`, so its width is `min w0 (k-2)`
(`w0` the maximal leading whitespace run); the lazy message then ends at the
earliest `j` from which everything up to `k` is whitespace. -/
def msgRuleMatch (tail : Str) : Option (Str × Str) :=
  let rule := (tail.reverse.takeWhile (fun c => !isWs c)).reverse
  let preRun := (tail.reverse.dropWhile (fun c => !isWs c)).reverse
  let k := preRun.length
  let w0 := (tail.takeWhile isWs).length
  if matchRule rule && decide (1 ≤ w0) && decide (3 ≤ k) then
    let w := min w0 (k - 2)
    let t := k - (preRun.reverse.takeWhile isWs).length
    let j := max (w + 1) t
    some ((tail.drop w).take (j - w), rule)
  else none

/-- Match of `(\d+):(\d+)\s+(error|warning)` followed by the message/rule
tail, shared by both finding regexes.  Each `(\d+)` and the `\s+` are greedy
and forced (a shorter run would put a digit where `:` is required, or
whitespace where the severity keyword starts); `error` and `warning` start
with different letters, so the alternation is deterministic. -/
def parseFromDigits (l : Str) : Option (Str × Str × Str × Str × Str) :=
  let d1 := l.takeWhile Char.isDigit
  let r1 := l.dropWhile Char.isDigit
  if d1.isEmpty then none else
  match r1 with
  | ':' :: r2 =>
    let d2 := r2.takeWhile Char.isDigit
    let r3 := r2.dropWhile Char.isDigit
    if d2.isEmpty then none else
    if (r3.takeWhile isWs).isEmpty then none else
    let r4 := r3.dropWhile isWs
    if leadsWith ('e' :: 'r' :: 'r' :: 'o' :: 'r' :: []) r4 then
      match msgRuleMatch (r4.drop 5) with
      | some (msg, rule) => some (d1, d2, ['e','r','r','o','r'], msg, rule)
      | none => none
    else if leadsWith ('w' :: 'a' :: 'r' :: 'n' :: 'i' :: 'n' :: 'g' :: []) r4 then
      match msgRuleMatch (r4.drop 7) with
      | some (msg, rule) => some (d1, d2, ['w','a','r','n','i','n','g'], msg, rule)
      | none => none
    else none
  | _ => none

/-- `analyze-lint.py` line 12: the flat-shape regex
`^(/[^\s]+)\s+(\d+):(\d+)\s+(error|warning)\s+(.+?)\s+(@[\w-]+/[\w-]+)$`,
applied with `re.match`.  The path group `(/[^\s]+)` is a maximal non-space
run of length at least two starting with `/` (a shorter run would put a
non-space where `\s+` must start). -/
def parseFlat (l : Str) : Option (Str × Str × Str × Str × Str × Str) :=
  match l with
  | '/' :: rest =>
    let pathTail := rest.takeWhile (fun c => !isWs c)
    let r1 := rest.dropWhile (fun c => !isWs c)
    if pathTail.isEmpty then none else
    if (r1.takeWhile isWs).isEmpty then none else
    match parseFromDigits (r1.dropWhile isWs) with
    | some (d1, d2, sev, msg, rule) => some ('/' :: pathTail, d1, d2, sev, msg, rule)
    | none => none
  | _ => none

/-- `analyze-lint2.py` line 61: the finding regex
`^\s+(\d+):(\d+)\s+(error|warning)\s+(.+?)\s+(@[\w-]+/[\w-]+)$`. -/
def parseFindingLine (l : Str) : Option (Str × Str × Str × Str × Str) :=
  if (l.takeWhile isWs).isEmpty then none
  else parseFromDigits (l.dropWhile isWs)

/-- `analyze-lint2.py` line 60: the guard `re.match(r'^\s+\d+:\d+\s+(error|warning)', line)`
(a prefix match, not anchored at the end). -/
def isFindingStart (l : Str) : Bool :=
  let r1 := l.dropWhile isWs
  let r2 := r1.dropWhile Char.isDigit
  !(l.takeWhile isWs).isEmpty && !(r1.takeWhile Char.isDigit).isEmpty &&
    (match r2 with
     | ':' :: r3 =>
       let r4 := r3.dropWhile Char.isDigit
       !(r3.takeWhile Char.isDigit).isEmpty && !(r4.takeWhile isWs).isEmpty &&
         (leadsWith ['e','r','r','o','r'] (r4.dropWhile isWs) ||
          leadsWith ['w','a','r','n','i','n','g'] (r4.dropWhile isWs))
     | _ => false)

/-- `analyze-lint2.py` line 57: `line and line.startswith('/') and not line.startswith(' ')`. -/
def isFilePathLine (l : Str) : Bool :=
  !l.isEmpty && leadsWith ['/'] l && !(leadsWith [' '] l)

/-! ## Path handling (`pathlib.Path(...).parts` and the directory grouping key) -/

/-- The path segment `src`. -/
def srcStr : Str := ['s', 'r', 'c']

/-- `PurePosixPath(p).parts` for an absolute path `p` (the only paths the
scripts feed to it): the root, then the non-empty segments, with `.` segments
removed; POSIX keeps a double (but not triple) leading slash as the root. -/
def pathParts (p : Str) : List Str :=
  let root : Str := if leadsWith ['/', '/'] p && !leadsWith ['/', '/', '/'] p then ['/', '/'] else ['/']
  root :: (splitChar '/' p).filter (fun seg => decide (seg ≠ [] ∧ seg ≠ ['.']))

/-- Index of the first occurrence of `x` (Python `list.index`; `l.length` when absent). -/
def idxOf (x : Str) : List Str → Nat
  | [] => 0
  | k :: ks => if k = x then 0 else idxOf x ks + 1

/-- `analyze-lint.py` lines 38-42 / `analyze-lint2.py` lines 79-83:
`if 'src' in path_parts:` take the part right after the first `'src'` when
one exists. -/
def directoryKey (parts : List Str) : Option Str :=
  if srcStr ∈ parts then
    let i := idxOf srcStr parts
    if i + 1 < parts.length then some (parts.getD (i + 1) []) else none
  else none

/-! ## Aggregation state -/

/-- One stored finding: the dict
`{'line', 'column', 'severity', 'message', 'rule'}` built at
`analyze-lint.py` lines 28-34 / `analyze-lint2.py` lines 69-75 (all values
are the regex's string groups). -/
structure Finding where
  line : Str
  column : Str
  severity : Str
  message : Str
  rule : Str
deriving DecidableEq, Repr

/-- `defaultdict(int)` bump `d[k] += 1`, as an insertion-ordered association list. -/
def bump (k : Str) : List (Str × Nat) → List (Str × Nat)
  | [] => [(k, 1)]
  | (k', n) :: rest => if k' = k then (k', n + 1) :: rest else (k', n) :: bump k rest

/-- `defaultdict(list)` append `d[k].append(f)`, as an insertion-ordered association list. -/
def appendTo (k : Str) (f : Finding) : List (Str × List Finding) → List (Str × List Finding)
  | [] => [(k, [f])]
  | (k', v) :: rest => if k' = k then (k', v ++ [f]) :: rest else (k', v) :: appendTo k f rest

/-- `d.get(k, 0)` — and also what reading a missing key of a `defaultdict(int)` yields. -/
def getOrZero (d : List (Str × Nat)) (k : Str) : Nat :=
  match d with
  | [] => 0
  | (k', n) :: rest => if k' = k then n else getOrZero rest k

/-- Reading a `defaultdict(list)` without inserting (used only in statements). -/
def getListD (d : List (Str × List Finding)) (k : Str) : List Finding :=
  match d with
  | [] => []
  | (k', v) :: rest => if k' = k then v else getListD rest k

/-- The keys of an association list, in insertion order. -/
def keysOf {α : Type} (d : List (Str × α)) : List Str := d.map Prod.fst

/-- Sum of the counts of a rule→count mapping. -/
def sumCounts (d : List (Str × Nat)) : Nat := (d.map Prod.snd).sum

/-- Aggregation state of `analyze-lint.py` (lines 13-17). -/
structure AnalyzeState where
  errorsByType : List (Str × Nat)
  errorsByFile : List (Str × List Finding)
  errorsByDirectory : List (Str × Nat)
  totalErrors : Nat
  totalWarnings : Nat
deriving DecidableEq, Repr

def init1 : AnalyzeState := ⟨[], [], [], 0, 0⟩

/-- The accumulation body shared by both scripts
(`analyze-lint.py` lines 22-48 with the parsed groups in hand):
bump the rule count, append the stored finding under `filePath`,
bump the directory count when the path yields a grouping key, and
bump the severity total. -/
def accumulate (s : AnalyzeState) (filePath : Str)
    (g : Str × Str × Str × Str × Str) : AnalyzeState :=
  let (lineNum, colNum, sev, msg, rule) := g
  let f : Finding := ⟨lineNum, colNum, sev, msg, rule⟩
  let ebt := bump rule s.errorsByType
  let ebf := appendTo filePath f s.errorsByFile
  let ebd :=
    match directoryKey (pathParts filePath) with
    | some dir => bump dir s.errorsByDirectory
    | none => s.errorsByDirectory
  if sev = ['e','r','r','o','r'] then
    { errorsByType := ebt, errorsByFile := ebf, errorsByDirectory := ebd,
      totalErrors := s.totalErrors + 1, totalWarnings := s.totalWarnings }
  else
    { errorsByType := ebt, errorsByFile := ebf, errorsByDirectory := ebd,
      totalErrors := s.totalErrors, totalWarnings := s.totalWarnings + 1 }

/-- One iteration of `analyze-lint.py`'s parse loop (lines 19-48):
`re.match(error_pattern, line.strip())`, accumulating on a match. -/
def step1 (s : AnalyzeState) (l : Str) : AnalyzeState :=
  match parseFlat (strip l) with
  | none => s
  | some (filePath, g) => accumulate s filePath g

/-- `analyze-lint.py`'s whole parse loop over a list of lines. -/
def analyze1 (ls : List Str) : AnalyzeState := ls.foldl step1 init1

/-- `analyze-lint.py` lines 8-19: `output = result.stdout + result.stderr`,
then iterate over `output.split('\n')`. -/
def analyze1Run (stdoutText stderrText : Str) : AnalyzeState :=
  analyze1 (splitChar '\n' (stdoutText ++ stderrText))

/-- Aggregation state of `analyze-lint2.py` (lines 48-54): the same counters
plus the `current_file` cursor. -/
structure Analyze2State where
  errorsByType : List (Str × Nat)
  errorsByFile : List (Str × List Finding)
  errorsByDirectory : List (Str × Nat)
  totalErrors : Nat
  totalWarnings : Nat
  currentFile : Option Str
deriving DecidableEq, Repr

def init2 : Analyze2State := ⟨[], [], [], 0, 0, none⟩

/-- The accumulation body of `analyze-lint2.py` (lines 63-89), written via
the shared `accumulate`; `current_file` is left unchanged. -/
def accumulate2 (s : Analyze2State) (cf : Str)
    (g : Str × Str × Str × Str × Str) : Analyze2State :=
  let s' := accumulate ⟨s.errorsByType, s.errorsByFile, s.errorsByDirectory,
                        s.totalErrors, s.totalWarnings⟩ cf g
  ⟨s'.errorsByType, s'.errorsByFile, s'.errorsByDirectory,
   s'.totalErrors, s'.totalWarnings, s.currentFile⟩

/-- One iteration of `analyze-lint2.py`'s parse loop (lines 55-89):
a file-path line moves the cursor; otherwise, when the cursor is a truthy
string and the line passes the finding-prefix guard, the full finding regex
is tried and a match is accumulated against the cursor's file. -/
def step2 (s : Analyze2State) (l : Str) : Analyze2State :=
  if isFilePathLine l then
    { s with currentFile := some (strip l) }
  else
    match s.currentFile with
    | none => s
    | some cf =>
      if !cf.isEmpty && isFindingStart l then
        match parseFindingLine l with
        | none => s
        | some g => accumulate2 s cf g
      else s

/-- `analyze-lint2.py`'s whole parse loop over a list of lines. -/
def analyze2 (ls : List Str) : Analyze2State := ls.foldl step2 init2

/-- `analyze-lint2.py` line 45: only the captured standard-error text is kept
(`full_output = result.stderr`). -/
def fullOutput2 (stdoutText stderrText : Str) : Str := stderrText

/-- `analyze-lint2.py` lines 44-89 as a function of the two captured streams. -/
def analyze2Run (stdoutText stderrText : Str) : Analyze2State :=
  analyze2 (splitChar '\n' (fullOutput2 stdoutText stderrText))

/-! ## Report-side computations used by the claims -/

/-- The stable descending insertion position: keep `q` in front while its
count is at least the inserted one's. -/
def insertDesc (p : Str × Nat) : List (Str × Nat) → List (Str × Nat)
  | [] => [p]
  | q :: rest => if p.2 ≤ q.2 then q :: insertDesc p rest else p :: q :: rest

/-- `sorted(d.items(), key=lambda x: x[1], reverse=True)` — Python's sort is
stable, and `reverse=True` keeps equal-key items in insertion order, which is
exactly what this insertion sort computes
(`analyze-lint.py` line 58 / `analyze-lint2.py` line 99). -/
def sortDesc (d : List (Str × Nat)) : List (Str × Nat) :=
  d.foldl (fun acc p => insertDesc p acc) []

/-- `'needle' in hay` on Python strings: substring containment. -/
def containsSub (needle hay : Str) : Bool :=
  match hay with
  | [] => needle.isEmpty
  | _ :: t => leadsWith needle hay || containsSub needle t

def anyRule : Str := "@typescript-eslint/no-explicit-any".toList
def unusedRule : Str := "@typescript-eslint/no-unused-vars".toList
def hooksSub : Str := "react-hooks".toList
def refreshRule : Str := "react-refresh/only-export-components".toList
def emptyObjRule : Str := "@typescript-eslint/no-empty-object-type".toList

/-- `analyze-lint2.py` line 132: `errors_by_type.get('@typescript-eslint/no-explicit-any', 0)`. -/
def anyErrors (d : List (Str × Nat)) : Nat := getOrZero d anyRule

/-- `analyze-lint2.py` line 133. -/
def unusedVars (d : List (Str × Nat)) : Nat := getOrZero d unusedRule

/-- `analyze-lint.py` line 96 / `analyze-lint2.py` line 134:
`sum(count for rule, count in errors_by_type.items() if 'react-hooks' in rule)`. -/
def reactHooksTotal (d : List (Str × Nat)) : Nat :=
  sumCounts (d.filter (fun p => containsSub hooksSub p.1))

/-- `analyze-lint2.py` line 135. -/
def reactRefreshCount (d : List (Str × Nat)) : Nat := getOrZero d refreshRule

/-- `analyze-lint2.py` line 136. -/
def emptyInterfaceCount (d : List (Str × Nat)) : Nat := getOrZero d emptyObjRule

/-- The rules of the findings parsed by `analyze-lint.py`, in input order
(used to speak about first occurrences in the input). -/
def rulesSeq1 (ls : List Str) : List Str :=
  ls.filterMap (fun l => (parseFlat (strip l)).map (fun g => g.2.2.2.2.2))

/-- The file cursor the block parser holds after reading `ls`: the nearest
(i.e. last) file-path line so far, stripped. -/
def nearestFile (ls : List Str) : Option Str :=
  (ls.reverse.find? isFilePathLine).map strip

/-- What a single physical line contributes in the block shape, given that a
file cursor is set: the finding-prefix guard followed by the full finding
regex. -/
def findingAt (l : Str) : Option Finding :=
  if isFindingStart l then
    match parseFindingLine l with
    | some (d1, d2, sev, msg, rule) => some ⟨d1, d2, sev, msg, rule⟩
    | none => none
  else none

/-- Folding a rule sequence into a `defaultdict(int)`. -/
def bumpFold (d : List (Str × Nat)) (seq : List Str) : List (Str × Nat) :=
  seq.foldl (fun d' r => bump r d') d

/-- The elements of `seq` with later duplicates removed (each element at its
first occurrence). -/
def firstOccs (seq : List Str) : List Str :=
  seq.foldl (fun ks r => if r ∈ ks then ks else ks ++ [r]) []

/-! ## Concrete inputs used by the claims -/

/-- The spec's flat-shape example line, verbatim: note the `:` (not
whitespace) between the path and `12:3`. -/
def c1SpecLine : Str :=
  "/a/b/src/components/Foo.tsx:12:3  error  Unexpected any. Specify a different type  @typescript-eslint/no-explicit-any".toList

/-- The spec's example with the path separated from `line:column` by
whitespace, as the flat-shape rule (spec 4.1) and the regex require. -/
def c1FixedLine : Str :=
  "/a/b/src/components/Foo.tsx 12:3  error  Unexpected any. Specify a different type  @typescript-eslint/no-explicit-any".toList

def c1Path : Str := "/a/b/src/components/Foo.tsx".toList

def c1Finding : Finding :=
  ⟨"12".toList, "3".toList, "error".toList,
   "Unexpected any. Specify a different type".toList, anyRule⟩

/-- A file-path line from the lint output quoted inside `analyze-lint2.py` itself. -/
def c2PathLine : Str :=
  "/Users/jasonsmacbookpro2022/canvas/src/components/EnhancedNPILookup.tsx".toList

/-- A finding line from that same quoted output whose rule identifier,
`react-hooks/exhaustive-deps`, has no leading `@`. -/
def c2FindingLine : Str :=
  "  222:25  warning  React Hook useCallback received a function whose dependencies are unknown. Pass an inline function instead  react-hooks/exhaustive-deps".toList

/-- A block-parser state holding a file cursor, for the wrapped-message claim. -/
def c6Cursor : Analyze2State :=
  analyze2 ["/Users/j/canvas/src/components/EnhancedActionSuite.tsx".toList]

/-- A warning whose message wraps onto a second physical line, so the rule
anchor is not on the first one. -/
def c6Wrapped : List Str :=
  ["  835:6  warning  React Hook useCallback has missing dependencies. Either include them or".toList,
   "    remove the dependency array  react-hooks/exhaustive-deps".toList]

/-- A flat line whose file sits directly under a `src` directory that is not
the path's first `src` segment. -/
def c9Line1 : Str := "/src/b/src/Foo.tsx 1:1 error m @a/b".toList

/-- A flat line whose path's last segment is `src`, with an earlier `src` segment. -/
def c9Line2 : Str := "/src/x/src 1:1 error m @a/b".toList

/-- A well-formed flat line used to witness whitespace-insensitivity. -/
def c10Line : Str :=
  "/a/b/src/components/Foo.tsx 12:3  error  Unexpected any  @typescript-eslint/no-explicit-any".toList

/-- Two flat lines with distinct rules of equal count, to witness tie stability. -/
def c4Lines : List Str :=
  ["/p/src/a.ts 1:1 error m @a/b".toList, "/p/src/a.ts 2:1 error m @c/d".toList]

/-! ## Theorems -/

/-- C1 counterexample: the spec's flat-shape example line, taken verbatim,
does not match `error_pattern` at all — the regex demands whitespace between
the path group and `line:column`, but the example glues them with `:`.
Running `analyze-lint.py`'s loop on exactly that line leaves the state
untouched: no Finding is produced. -/
theorem c1_spec_example_yields_nothing : analyze1 [c1SpecLine] = init1 := by decide

/-- C1 (amended): with the path separated from `12:3` by whitespace — the
shape `error_pattern` and spec 4.1 actually describe — the line yields
exactly one Finding, with rule `@typescript-eslint/no-explicit-any`,
severity `error`, and directory grouping key `components`. -/
theorem c1_flat_example_parses :
    analyze1 [c1FixedLine] =
      ⟨[(anyRule, 1)], [(c1Path, [c1Finding])], [("components".toList, 1)], 1, 0⟩ := by
  decide

/-- C2: the finding regexes require a leading `@` on the rule group, so the
un-scoped rule `react-hooks/exhaustive-deps` — present in the very lint
output quoted inside `analyze-lint2.py`, and summed over by its
`react_hooks_total` report group — can never be parsed.  On the quoted
file/finding pair the loop records nothing at all (the line does pass the
finding-prefix guard, so it is a finding line that is then dropped). -/
theorem c2_unscoped_rule_never_counted :
    isFindingStart c2FindingLine = true ∧
    analyze2 [c2PathLine, c2FindingLine] = ⟨[], [], [], 0, 0, some c2PathLine⟩ := by
  decide

/-- C8: `analyze-lint2.py` parses `result.stderr` only (line 45), so any two
runs with equal stderr and arbitrary stdout produce identical aggregates. -/
theorem c8_depends_only_on_stderr (out1 out2 err : Str) :
    analyze2Run out1 err = analyze2Run out2 err := rfl

/-- C7: a key absent from a rule→count mapping reads as 0 through
`.get(key, 0)`, and on empty input every fixed report group of either script
prints 0 (the lookups are total functions, so no exception is possible). -/
theorem c7_missing_key_reads_zero :
    (∀ (d : List (Str × Nat)) (r : Str), r ∉ keysOf d → getOrZero d r = 0) ∧
    (anyErrors (analyze2Run [] []).errorsByType = 0 ∧
     unusedVars (analyze2Run [] []).errorsByType = 0 ∧
     reactHooksTotal (analyze2Run [] []).errorsByType = 0 ∧
     reactRefreshCount (analyze2Run [] []).errorsByType = 0 ∧
     emptyInterfaceCount (analyze2Run [] []).errorsByType = 0) ∧
    (anyErrors (analyze1Run [] []).errorsByType = 0 ∧
     unusedVars (analyze1Run [] []).errorsByType = 0 ∧
     reactHooksTotal (analyze1Run [] []).errorsByType = 0 ∧
     reactRefreshCount (analyze1Run [] []).errorsByType = 0 ∧
     emptyInterfaceCount (analyze1Run [] []).errorsByType = 0) := by
  refine ⟨fun d r h => ?_, by decide, by decide⟩
  induction d with
  | nil => rfl
  | cons p rest ih =>
    simp only [keysOf, List.map_cons, List.mem_cons, not_or] at h
    simpa [getOrZero, Ne.symm h.1] using ih (by simpa [keysOf] using h.2)

/-- C7 witness: a concrete absent key resolves to 0. -/
theorem c7_witness : getOrZero [(anyRule, 2)] unusedRule = 0 :=
  c7_missing_key_reads_zero.1 [(anyRule, 2)] unusedRule (by decide)

/-- A non-path line on which the full finding regex fails leaves the block
parser's state untouched. -/
theorem step2_skip (s : Analyze2State) (l : Str)
    (hpath : isFilePathLine l = false) (hparse : parseFindingLine l = none) :
    step2 s l = s := by
  unfold step2
  rw [hpath]
  simp only [Bool.false_eq_true, if_false]
  split
  · rfl
  · split
    · rw [hparse]
    · rfl

/-- C6: lines that are neither file-path lines nor full matches of the
finding regex — in particular every physical line of a finding whose wrapped
message keeps the trailing rule anchor off the first line — contribute
nothing: the whole state, hence every aggregate counter, is unchanged, and
no error is raised (the parse functions are total). -/
theorem c6_wrapped_entry_silent (s : Analyze2State) (ls : List Str)
    (h : ls.all (fun l => !isFilePathLine l && (parseFindingLine l).isNone) = true) :
    ls.foldl step2 s = s := by
  rw [List.all_eq_true] at h
  induction ls generalizing s with
  | nil => rfl
  | cons l rest ih =>
    have hl := h l (List.mem_cons_self l rest)
    rw [Bool.and_eq_true, Bool.not_eq_true', Option.isNone_iff_eq_none] at hl
    rw [List.foldl_cons, step2_skip s l hl.1 hl.2]
    exact ih s (fun x hx => h x (List.mem_cons_of_mem l hx))

/-- C6 witness: a concrete two-physical-line wrapped warning (rule anchor on
the second line) processed from a state that already holds a file cursor
changes nothing. -/
theorem c6_witness : c6Wrapped.foldl step2 c6Cursor = c6Cursor :=
  c6_wrapped_entry_silent c6Cursor c6Wrapped (by decide)

/-- Dropping a predicate's run ignores a prefix on which it holds everywhere. -/
theorem dropWhile_all_append (p : Char → Bool) (pre x : Str)
    (hp : ∀ c ∈ pre, p c = true) :
    (pre ++ x).dropWhile p = x.dropWhile p := by
  induction pre with
  | nil => rfl
  | cons c rest ih =>
    rw [List.cons_append, List.dropWhile_cons,
        hp c (List.mem_cons_self c rest), if_pos rfl]
    exact ih (fun d hd => hp d (List.mem_cons_of_mem c hd))

/-- When the head run survives, `dropWhile` distributes over an append. -/
theorem dropWhile_append_of_ne_nil (p : Char → Bool) (l q : Str)
    (h : l.dropWhile p ≠ []) :
    (l ++ q).dropWhile p = l.dropWhile p ++ q := by
  induction l with
  | nil => exact absurd rfl h
  | cons c rest ih =>
    rw [List.cons_append, List.dropWhile_cons, List.dropWhile_cons]
    by_cases hc : p c = true
    · rw [if_pos hc, if_pos hc]
      rw [List.dropWhile_cons, if_pos hc] at h
      exact ih h
    · rw [if_neg hc, if_neg hc, List.cons_append]

/-- `str.strip()` is blind to added leading and trailing whitespace. -/
theorem strip_pad (l padL padR : Str)
    (hL : ∀ c ∈ padL, isWs c = true) (hR : ∀ c ∈ padR, isWs c = true) :
    strip (padL ++ l ++ padR) = strip l := by
  unfold strip
  rw [List.append_assoc, dropWhile_all_append isWs padL (l ++ padR) hL]
  by_cases h : l.dropWhile isWs = []
  · have hall : ∀ c ∈ l, isWs c = true := List.dropWhile_eq_nil_iff.mp h
    have h2 : (l ++ padR).dropWhile isWs = [] := by
      rw [dropWhile_all_append isWs l padR hall]
      exact List.dropWhile_eq_nil_iff.mpr hR
    rw [h, h2]
  · rw [dropWhile_append_of_ne_nil isWs l padR h, List.reverse_append,
        dropWhile_all_append isWs padR.reverse (l.dropWhile isWs).reverse
          (fun c hc => hR c (List.mem_reverse.mp hc))]

/-- C10: `analyze-lint.py` strips each line before matching, so adding or
removing leading and trailing whitespace around a line changes neither
whether it parses nor the Finding it yields: the per-line step computes the
same state either way (hence an indented but otherwise flat-shaped line
still produces its Finding). -/
theorem c10_whitespace_insensitive (s : AnalyzeState) (l padL padR : Str)
    (hL : ∀ c ∈ padL, isWs c = true) (hR : ∀ c ∈ padR, isWs c = true) :
    step1 s (padL ++ l ++ padR) = step1 s l := by
  unfold step1
  rw [strip_pad l padL padR hL hR]

/-- C10 witness: a tab-and-space indented copy of a concrete flat line is
processed identically to the unpadded line, and that line does produce a
Finding (one error is counted). -/
theorem c10_witness :
    step1 init1 (['\t', ' '] ++ c10Line ++ [' ']) = step1 init1 c10Line ∧
    (step1 init1 c10Line).totalErrors = 1 :=
  ⟨c10_whitespace_insensitive init1 c10Line ['\t', ' '] [' ']
      (by decide) (by decide),
   by decide⟩

/-- Bumping a rule raises the total of the per-rule counts by one. -/
theorem sumCounts_bump (r : Str) (d : List (Str × Nat)) :
    sumCounts (bump r d) = sumCounts d + 1 := by
  induction d with
  | nil => rfl
  | cons p rest ih =>
    obtain ⟨k, n⟩ := p
    by_cases h : k = r
    · simp only [bump, if_pos h, sumCounts, List.map_cons, List.sum_cons]
      omega
    · simp only [bump, if_neg h, sumCounts, List.map_cons, List.sum_cons] at *
      omega

/-- One accumulation bumps both the per-rule total and the severity totals by one. -/
theorem accumulate_counts (s : AnalyzeState) (fp : Str)
    (g : Str × Str × Str × Str × Str) :
    sumCounts (accumulate s fp g).errorsByType = sumCounts s.errorsByType + 1 ∧
    (accumulate s fp g).totalErrors + (accumulate s fp g).totalWarnings
      = s.totalErrors + s.totalWarnings + 1 := by
  obtain ⟨d1, d2, sev, msg, rule⟩ := g
  simp only [accumulate]
  split
  · exact ⟨sumCounts_bump rule s.errorsByType,
      by show s.totalErrors + 1 + s.totalWarnings = s.totalErrors + s.totalWarnings + 1
         omega⟩
  · exact ⟨sumCounts_bump rule s.errorsByType,
      by show s.totalErrors + (s.totalWarnings + 1) = s.totalErrors + s.totalWarnings + 1
         omega⟩

theorem step1_counts (s : AnalyzeState) (l : Str)
    (h : sumCounts s.errorsByType = s.totalErrors + s.totalWarnings) :
    sumCounts (step1 s l).errorsByType
      = (step1 s l).totalErrors + (step1 s l).totalWarnings := by
  unfold step1
  cases hp : parseFlat (strip l) with
  | none => exact h
  | some g =>
    obtain ⟨fp, g⟩ := g
    have hc := accumulate_counts s fp g
    show sumCounts (accumulate s fp g).errorsByType
      = (accumulate s fp g).totalErrors + (accumulate s fp g).totalWarnings
    omega

theorem step2_counts (s : Analyze2State) (l : Str)
    (h : sumCounts s.errorsByType = s.totalErrors + s.totalWarnings) :
    sumCounts (step2 s l).errorsByType
      = (step2 s l).totalErrors + (step2 s l).totalWarnings := by
  unfold step2
  by_cases hp : isFilePathLine l = true
  · rw [if_pos hp]; exact h
  · rw [if_neg hp]
    cases hcf : s.currentFile with
    | none => exact h
    | some cf =>
      dsimp only
      by_cases hg : (!cf.isEmpty && isFindingStart l) = true
      · rw [if_pos hg]
        cases hpl : parseFindingLine l with
        | none => exact h
        | some g =>
          have hc := accumulate_counts ⟨s.errorsByType, s.errorsByFile,
            s.errorsByDirectory, s.totalErrors, s.totalWarnings⟩ cf g
          show sumCounts (accumulate2 s cf g).errorsByType
            = (accumulate2 s cf g).totalErrors + (accumulate2 s cf g).totalWarnings
          simp only [accumulate2]
          dsimp only at hc ⊢
          omega
      · rw [if_neg hg]; exact h

theorem foldl_counts1 (ls : List Str) (s : AnalyzeState)
    (h : sumCounts s.errorsByType = s.totalErrors + s.totalWarnings) :
    sumCounts (ls.foldl step1 s).errorsByType
      = (ls.foldl step1 s).totalErrors + (ls.foldl step1 s).totalWarnings := by
  induction ls generalizing s with
  | nil => exact h
  | cons l rest ih => exact ih (step1 s l) (step1_counts s l h)

theorem foldl_counts2 (ls : List Str) (s : Analyze2State)
    (h : sumCounts s.errorsByType = s.totalErrors + s.totalWarnings) :
    sumCounts (ls.foldl step2 s).errorsByType
      = (ls.foldl step2 s).totalErrors + (ls.foldl step2 s).totalWarnings := by
  induction ls generalizing s with
  | nil => exact h
  | cons l rest ih => exact ih (step2 s l) (step2_counts s l h)

/-- C3: in both scripts, after processing any list of input lines — and so
after every per-line accumulation step, each intermediate state being the
result for the corresponding prefix of the input — the sum of the per-rule
counts equals the error total plus the warning total. -/
theorem c3_rule_counts_invariant :
    (∀ ls : List Str, sumCounts (analyze1 ls).errorsByType
        = (analyze1 ls).totalErrors + (analyze1 ls).totalWarnings) ∧
    (∀ ls : List Str, sumCounts (analyze2 ls).errorsByType
        = (analyze2 ls).totalErrors + (analyze2 ls).totalWarnings) :=
  ⟨fun ls => foldl_counts1 ls init1 rfl, fun ls => foldl_counts2 ls init2 rfl⟩

/-- The scripts' bounds-checked tuple access, as an option of the dropped list. -/
theorem getD_head_drop (l : List Str) (n : Nat) :
    (if n < l.length then some (l.getD n []) else none) = (l.drop n).head? := by
  induction l generalizing n with
  | nil => simp
  | cons x xs ih =>
    cases n with
    | zero => simp
    | succ m =>
      rw [List.drop_succ_cons, ← ih m]
      simp [Nat.succ_lt_succ_iff]

/-- Python `list.index` past a prefix that misses the element. -/
theorem idxOf_append_right (x : Str) (pre l : List Str) (h : x ∉ pre) :
    idxOf x (pre ++ l) = pre.length + idxOf x l := by
  induction pre with
  | nil => simp [idxOf]
  | cons k ks ih =>
    have hk : k ≠ x := fun e => h (e ▸ List.mem_cons_self k ks)
    rw [List.cons_append]
    show (if k = x then 0 else idxOf x (ks ++ l) + 1) = (k :: ks).length + idxOf x l
    rw [if_neg hk, ih (fun hx => h (List.mem_cons_of_mem k hx)), List.length_cons]
    omega

/-- C9 counterexample: on the two flat lines with paths `/src/b/src/Foo.tsx`
(a file directly under a `src` directory) and `/src/x/src` (last segment
`src`), the directory counts are `b` and `x` — not the file's own name
`Foo.tsx`, and not nothing: both parts of the claim's consequence fail when
an earlier `src` segment exists, because the code keys on the first `src`. -/
theorem c9_counterexample :
    (analyze1 [c9Line1, c9Line2]).errorsByDirectory
      = [("b".toList, 1), ("x".toList, 1)] := by decide

/-- C9 (amended): the grouping key is the segment right after the first
`src` segment; consequently a file directly under the first `src` keys on
its own name, a path in which the first `src` is the last segment yields no
key, and a finding whose path yields no key leaves the directory counts
untouched. -/
theorem c9_first_src_key :
    (∀ parts : List Str, srcStr ∈ parts →
        directoryKey parts = (parts.drop (idxOf srcStr parts + 1)).head?) ∧
    (∀ (pre : List Str) (fname : Str), srcStr ∉ pre →
        directoryKey (pre ++ [srcStr, fname]) = some fname) ∧
    (∀ pre : List Str, srcStr ∉ pre →
        directoryKey (pre ++ [srcStr]) = none) ∧
    (∀ (s : AnalyzeState) (l : Str),
        (∀ g, parseFlat (strip l) = some g → directoryKey (pathParts g.1) = none) →
        (step1 s l).errorsByDirectory = s.errorsByDirectory) := by
  have key : ∀ parts : List Str, srcStr ∈ parts →
      directoryKey parts = (parts.drop (idxOf srcStr parts + 1)).head? := by
    intro parts hm
    unfold directoryKey
    rw [if_pos hm]
    exact getD_head_drop parts (idxOf srcStr parts + 1)
  refine ⟨key, fun pre fname h => ?_, fun pre h => ?_, fun s l h => ?_⟩
  · rw [key _ (by simp), idxOf_append_right srcStr pre [srcStr, fname] h]
    show ((pre ++ [srcStr, fname]).drop (pre.length + (if srcStr = srcStr then 0 else _) + 1)).head? = _
    rw [if_pos rfl, Nat.add_zero, ← List.drop_drop, List.drop_left]
    rfl
  · rw [key _ (by simp), idxOf_append_right srcStr pre [srcStr] h]
    show ((pre ++ [srcStr]).drop (pre.length + (if srcStr = srcStr then 0 else _) + 1)).head? = _
    rw [if_pos rfl, Nat.add_zero, ← List.drop_drop, List.drop_left]
    rfl
  · unfold step1
    cases hp : parseFlat (strip l) with
    | none => rfl
    | some g =>
      obtain ⟨fp, rest⟩ := g
      have hk : directoryKey (pathParts fp) = none := h (fp, rest) hp
      show (accumulate s fp rest).errorsByDirectory = s.errorsByDirectory
      obtain ⟨d1, d2, sev, msg, rule⟩ := rest
      simp only [accumulate, hk]
      split <;> rfl

/-- C9 witness: a concrete file directly under the path's first `src` keys
on its own name. -/
theorem c9_witness :
    directoryKey ([['/'], ['p']] ++ [srcStr, "Foo.tsx".toList]) = some "Foo.tsx".toList :=
  c9_first_src_key.2.1 [['/'], ['p']] "Foo.tsx".toList (by decide)

/-- A file-path line starts with `/`. -/
theorem pathline_head (c : Char) (t : Str) (h : isFilePathLine (c :: t) = true) :
    c = '/' := by
  unfold isFilePathLine leadsWith at h
  rw [Bool.and_eq_true, Bool.and_eq_true] at h
  have h2 := h.1.2
  rw [Bool.and_eq_true, decide_eq_true_eq] at h2
  exact h2.1.symm

/-- A file-path line survives `strip` (its `/` is not whitespace). -/
theorem strip_pathline_ne_nil (l : Str) (h : isFilePathLine l = true) :
    strip l ≠ [] := by
  cases l with
  | nil => simp [isFilePathLine] at h
  | cons c t =>
    rw [pathline_head c t h]
    intro he
    unfold strip at he
    rw [List.dropWhile_cons, if_neg (by decide)] at he
    rw [List.reverse_eq_nil_iff, List.dropWhile_eq_nil_iff] at he
    exact absurd (he '/' (List.mem_reverse.mpr (List.mem_cons_self _ _))) (by decide)

/-- A file-path line starts with `/`, not whitespace, so it never passes the
finding-prefix guard. -/
theorem findingStart_false_of_path (l : Str) (h : isFilePathLine l = true) :
    isFindingStart l = false := by
  cases l with
  | nil => simp [isFilePathLine] at h
  | cons c t =>
    rw [pathline_head c t h]
    simp only [isFindingStart, List.takeWhile_cons]
    rw [if_neg (by decide)]
    simp

/-- The block parser's cursor after any input is the nearest file-path line. -/
theorem step2_currentFile (s : Analyze2State) (l : Str) :
    (step2 s l).currentFile
      = if isFilePathLine l then some (strip l) else s.currentFile := by
  by_cases hp : isFilePathLine l = true
  · simp only [step2, hp, if_true]
  · rw [Bool.not_eq_true] at hp
    simp only [step2, hp, Bool.false_eq_true, if_false]
    cases hcf : s.currentFile with
    | none => exact hcf
    | some cf =>
      dsimp only
      split
      · cases parseFindingLine l with
        | none => exact hcf
        | some g => exact hcf
      · exact hcf

theorem nearestFile_append_path (ls : List Str) (l : Str)
    (h : isFilePathLine l = true) :
    nearestFile (ls ++ [l]) = some (strip l) := by
  unfold nearestFile
  rw [List.reverse_append, List.reverse_singleton, List.singleton_append,
      List.find?_cons_of_pos _ h]
  rfl

theorem nearestFile_append_other (ls : List Str) (l : Str)
    (h : isFilePathLine l = false) :
    nearestFile (ls ++ [l]) = nearestFile ls := by
  unfold nearestFile
  rw [List.reverse_append, List.reverse_singleton, List.singleton_append,
      List.find?_cons_of_neg _ (by simp [h])]

theorem analyze2_currentFile (ls : List Str) :
    (analyze2 ls).currentFile = nearestFile ls := by
  induction ls using List.reverseRecOn with
  | nil => rfl
  | append_singleton ls l ih =>
    have hstep : analyze2 (ls ++ [l]) = step2 (analyze2 ls) l := by
      unfold analyze2
      rw [List.foldl_append, List.foldl_cons, List.foldl_nil]
    rw [hstep, step2_currentFile]
    by_cases hp : isFilePathLine l = true
    · rw [if_pos hp, nearestFile_append_path ls l hp]
    · rw [Bool.not_eq_true] at hp
      rw [if_neg (by simp [hp]), nearestFile_append_other ls l hp, ih]

/-- A cursor produced by `nearestFile` is a non-empty (truthy) string. -/
theorem nearestFile_ne_nil (ls : List Str) (cf : Str)
    (h : nearestFile ls = some cf) : cf ≠ [] := by
  unfold nearestFile at h
  rw [Option.map_eq_some'] at h
  obtain ⟨x, hx, hcf⟩ := h
  exact hcf ▸ strip_pathline_ne_nil x (List.find?_some hx)

/-- Reading back an association-list append. -/
theorem getListD_appendTo (k f' : Str) (fd : Finding)
    (d : List (Str × List Finding)) :
    getListD (appendTo k fd d) f'
      = if k = f' then getListD d f' ++ [fd] else getListD d f' := by
  induction d with
  | nil => by_cases h : k = f' <;> simp [appendTo, getListD, h]
  | cons p rest ih =>
    obtain ⟨k', v⟩ := p
    by_cases h1 : k' = k
    · subst h1
      by_cases h2 : k' = f'
      · subst h2
        simp [appendTo, getListD]
      · simp [appendTo, getListD, h2]
    · by_cases h2 : k' = f'
      · subst h2
        simp [appendTo, getListD, h1, Ne.symm h1]
      · simp [appendTo, getListD, h1, h2, ih]

theorem accumulate_errorsByFile (s : AnalyzeState) (fp : Str)
    (g : Str × Str × Str × Str × Str) :
    (accumulate s fp g).errorsByFile
      = appendTo fp ⟨g.1, g.2.1, g.2.2.1, g.2.2.2.1, g.2.2.2.2⟩ s.errorsByFile := by
  obtain ⟨d1, d2, sev, msg, rule⟩ := g
  simp only [accumulate]
  split <;> rfl

theorem accumulate_errorsByType (s : AnalyzeState) (fp : Str)
    (g : Str × Str × Str × Str × Str) :
    (accumulate s fp g).errorsByType = bump g.2.2.2.2 s.errorsByType := by
  obtain ⟨d1, d2, sev, msg, rule⟩ := g
  simp only [accumulate]
  split <;> rfl

theorem accumulate2_errorsByFile (s : Analyze2State) (cf : Str)
    (g : Str × Str × Str × Str × Str) :
    (accumulate2 s cf g).errorsByFile
      = appendTo cf ⟨g.1, g.2.1, g.2.2.1, g.2.2.2.1, g.2.2.2.2⟩ s.errorsByFile := by
  show (accumulate ⟨s.errorsByType, s.errorsByFile, s.errorsByDirectory,
          s.totalErrors, s.totalWarnings⟩ cf g).errorsByFile = _
  rw [accumulate_errorsByFile]

/-- C5: block-shape attribution.  For every input and every file path `f`,
the findings stored under `f` are exactly those produced by finding lines
whose nearest preceding un-indented file-path line strips to `f`; a finding
line with no preceding file-path line (`nearestFile` of its prefix is
`none`) contributes to no file at all. -/
theorem c5_block_attribution (ls : List Str) (f : Str) :
    getListD (analyze2 ls).errorsByFile f
      = (List.range ls.length).filterMap (fun j =>
          if nearestFile (ls.take j) = some f then findingAt (ls.getD j []) else none) := by
  induction ls using List.reverseRecOn with
  | nil => rfl
  | append_singleton ls l ih =>
    have hstep : analyze2 (ls ++ [l]) = step2 (analyze2 ls) l := by
      unfold analyze2
      rw [List.foldl_append, List.foldl_cons, List.foldl_nil]
    have hlen : (ls ++ [l]).length = ls.length + 1 := by simp
    have hmain : (List.range ls.length).filterMap
        (fun j => if nearestFile ((ls ++ [l]).take j) = some f
                  then findingAt ((ls ++ [l]).getD j []) else none)
        = getListD (analyze2 ls).errorsByFile f := by
      rw [ih]
      apply List.filterMap_congr
      intro j hj
      have hj' := List.mem_range.mp hj
      rw [List.take_append_of_le_length (le_of_lt hj'),
          List.getD_append ls [l] [] j hj']
    have hfm : ∀ (g : Nat → Option Finding) (a : Nat),
        List.filterMap g [a] = (g a).toList := by
      intro g a
      cases h : g a <;> simp [List.filterMap_cons, h]
    have htakeN : (ls ++ [l]).take ls.length = ls := List.take_left ls [l]
    have hgetDN : (ls ++ [l]).getD ls.length [] = l := by
      rw [List.getD_eq_getElem?_getD, List.getElem?_append_right (le_refl ls.length)]
      simp
    rw [hstep, hlen, List.range_succ, List.filterMap_append, hmain, hfm,
        htakeN, hgetDN]
    by_cases hp : isFilePathLine l = true
    · have h1 : step2 (analyze2 ls) l
          = { analyze2 ls with currentFile := some (strip l) } := by
        unfold step2
        rw [if_pos hp]
      have hfa : findingAt l = none := by
        simp [findingAt, findingStart_false_of_path l hp]
      rw [h1, hfa, ite_self]
      simp
    · rw [Bool.not_eq_true] at hp
      cases hcf : (analyze2 ls).currentFile with
      | none =>
        have hnf : nearestFile ls = none := by
          rw [← analyze2_currentFile]
          exact hcf
        have h1 : step2 (analyze2 ls) l = analyze2 ls := by
          simp only [step2, hp, Bool.false_eq_true, if_false, hcf]
        rw [h1, hnf]
        simp
      | some cf =>
        have hnf : nearestFile ls = some cf := by
          rw [← analyze2_currentFile]
          exact hcf
        have hemp : cf.isEmpty = false :=
          List.isEmpty_eq_false.mpr (nearestFile_ne_nil ls cf hnf)
        by_cases hfs : isFindingStart l = true
        · cases hpl : parseFindingLine l with
          | none =>
            have h1 : step2 (analyze2 ls) l = analyze2 ls := by
              simp only [step2, hp, Bool.false_eq_true, if_false, hcf, hemp,
                Bool.not_false, hfs, Bool.and_self, if_true, hpl]
            have hfa : findingAt l = none := by
              simp [findingAt, hfs, hpl]
            rw [h1, hnf, hfa, ite_self]
            simp
          | some g =>
            have h1 : step2 (analyze2 ls) l = accumulate2 (analyze2 ls) cf g := by
              simp only [step2, hp, Bool.false_eq_true, if_false, hcf, hemp,
                Bool.not_false, hfs, Bool.and_self, if_true, hpl]
            have hfa : findingAt l = some ⟨g.1, g.2.1, g.2.2.1, g.2.2.2.1, g.2.2.2.2⟩ := by
              obtain ⟨d1, d2, sev, msg, rule⟩ := g
              simp [findingAt, hfs, hpl]
            rw [h1, hnf, hfa, accumulate2_errorsByFile, getListD_appendTo]
            by_cases hcf2 : cf = f
            · subst hcf2
              simp
            · simp [hcf2]
        · rw [Bool.not_eq_true] at hfs
          have h1 : step2 (analyze2 ls) l = analyze2 ls := by
            simp only [step2, hp, Bool.false_eq_true, if_false, hcf, hemp,
              Bool.not_false, hfs, Bool.and_false]
          have hfa : findingAt l = none := by
            simp [findingAt, hfs]
          rw [h1, hnf, hfa, ite_self]
          simp

/-! ### Stability of the descending sort (claim C4) -/

theorem sublist_insertDesc (p : Str × Nat) (d : List (Str × Nat)) :
    d.Sublist (insertDesc p d) := by
  induction d with
  | nil => exact List.nil_sublist [p]
  | cons q rest ih =>
    unfold insertDesc
    split
    · exact List.Sublist.cons₂ q ih
    · exact List.Sublist.cons p (List.Sublist.refl _)

theorem mem_insertDesc {x p : Str × Nat} {d : List (Str × Nat)} :
    x ∈ insertDesc p d ↔ x = p ∨ x ∈ d := by
  induction d with
  | nil => simp [insertDesc]
  | cons q rest ih =>
    unfold insertDesc
    split
    · rw [List.mem_cons, ih, List.mem_cons]
      tauto
    · rw [List.mem_cons, List.mem_cons]

theorem pairwise_insertDesc (p : Str × Nat) (d : List (Str × Nat))
    (h : d.Pairwise (fun x y => y.2 ≤ x.2)) :
    (insertDesc p d).Pairwise (fun x y => y.2 ≤ x.2) := by
  induction d with
  | nil => simp [insertDesc]
  | cons q rest ih =>
    have hq := List.pairwise_cons.mp h
    unfold insertDesc
    split
    · rename_i hle
      rw [List.pairwise_cons]
      refine ⟨fun x hx => ?_, ih hq.2⟩
      rcases mem_insertDesc.mp hx with h1 | h1
      · exact h1 ▸ hle
      · exact hq.1 x h1
    · rename_i hgt
      rw [List.pairwise_cons]
      refine ⟨fun x hx => ?_, h⟩
      rcases List.mem_cons.mp hx with h1 | h1
      · exact h1 ▸ le_of_lt (lt_of_not_le hgt)
      · exact le_trans (hq.1 x h1) (le_of_lt (lt_of_not_le hgt))

/-- Inserting `p` below an already-present `a` of no smaller count keeps `a`
in front of `p`: the inserted element lands after its equals. -/
theorem insertDesc_stable (a p : Str × Nat) (d : List (Str × Nat))
    (hmem : a ∈ d) (hsort : d.Pairwise (fun x y => y.2 ≤ x.2))
    (hle : p.2 ≤ a.2) :
    [a, p].Sublist (insertDesc p d) := by
  induction d with
  | nil => cases hmem
  | cons q rest ih =>
    have hq := List.pairwise_cons.mp hsort
    unfold insertDesc
    split
    · rcases List.mem_cons.mp hmem with h1 | h1
      · subst h1
        exact List.Sublist.cons₂ a
          (List.singleton_sublist.mpr (mem_insertDesc.mpr (Or.inl rfl)))
      · exact List.Sublist.cons q (ih h1 hq.2)
    · rename_i hgt
      exfalso
      rcases List.mem_cons.mp hmem with h1 | h1
      · exact hgt (h1 ▸ hle)
      · exact hgt (le_trans hle (hq.1 a h1))

theorem sortDesc_pairwise_aux (rest acc : List (Str × Nat))
    (h : acc.Pairwise (fun x y => y.2 ≤ x.2)) :
    (rest.foldl (fun d p => insertDesc p d) acc).Pairwise (fun x y => y.2 ≤ x.2) := by
  induction rest generalizing acc with
  | nil => exact h
  | cons p rest ih => exact ih _ (pairwise_insertDesc p acc h)

theorem sortDesc_stable_aux (a b : Str × Nat) (hab : a.2 = b.2) :
    ∀ (rest acc : List (Str × Nat)),
      acc.Pairwise (fun x y => y.2 ≤ x.2) →
      ([a, b].Sublist acc ∨ (a ∈ acc ∧ b ∈ rest) ∨ [a, b].Sublist rest) →
      [a, b].Sublist (rest.foldl (fun d p => insertDesc p d) acc) := by
  intro rest
  induction rest with
  | nil =>
    intro acc _ hd
    rcases hd with h | h | h
    · exact h
    · cases h.2
    · simp at h
  | cons p rest ih =>
    intro acc hpw hd
    rw [List.foldl_cons]
    apply ih (insertDesc p acc) (pairwise_insertDesc p acc hpw)
    rcases hd with h | ⟨ha, hb⟩ | h
    · exact Or.inl (h.trans (sublist_insertDesc p acc))
    · rcases List.mem_cons.mp hb with h1 | h1
      · subst h1
        exact Or.inl (insertDesc_stable a b acc ha hpw (le_of_eq hab.symm))
      · exact Or.inr (Or.inl ⟨mem_insertDesc.mpr (Or.inr ha), h1⟩)
    · cases h with
      | cons _ h' => exact Or.inr (Or.inr h')
      | cons₂ _ h' =>
        exact Or.inr (Or.inl ⟨mem_insertDesc.mpr (Or.inl rfl),
          (List.singleton_sublist.mp h')⟩)

/-- The ranked list keeps the dictionary order of equal-count entries. -/
theorem sortDesc_stable (a b : Str × Nat) (d : List (Str × Nat))
    (hab : a.2 = b.2) (h : [a, b].Sublist d) : [a, b].Sublist (sortDesc d) :=
  sortDesc_stable_aux a b hab d [] List.Pairwise.nil (Or.inr (Or.inr h))

theorem insertDesc_perm (p : Str × Nat) (d : List (Str × Nat)) :
    (insertDesc p d).Perm (p :: d) := by
  induction d with
  | nil => exact List.Perm.refl _
  | cons q rest ih =>
    unfold insertDesc
    split
    · exact (List.Perm.cons q ih).trans (List.Perm.swap p q rest)
    · exact List.Perm.refl _

theorem sortDesc_perm_aux (rest : List (Str × Nat)) :
    ∀ acc, (rest.foldl (fun d p => insertDesc p d) acc).Perm (rest ++ acc) := by
  induction rest with
  | nil => intro acc; simp
  | cons p rest ih =>
    intro acc
    rw [List.foldl_cons]
    exact ((ih _).trans (List.Perm.append_left rest (insertDesc_perm p acc))).trans
      List.perm_middle

theorem sortDesc_perm (d : List (Str × Nat)) : (sortDesc d).Perm d :=
  (sortDesc_perm_aux d []).trans (by simp)

/-! ### Keys of the rule dictionary are in first-occurrence order (claim C4) -/

theorem bump_keys (r : Str) (d : List (Str × Nat)) :
    keysOf (bump r d)
      = if r ∈ keysOf d then keysOf d else keysOf d ++ [r] := by
  induction d with
  | nil => simp [bump, keysOf]
  | cons p rest ih =>
    obtain ⟨k, n⟩ := p
    unfold keysOf at ih ⊢
    by_cases h : k = r
    · subst h
      simp [bump]
    · rw [show bump r ((k, n) :: rest) = (k, n) :: bump r rest from by simp [bump, h]]
      rw [List.map_cons, List.map_cons, ih]
      by_cases h2 : r ∈ List.map Prod.fst rest
      · rw [if_pos h2, if_pos (List.mem_cons_of_mem _ h2)]
      · rw [if_neg h2, List.cons_append,
            if_neg (show ¬r ∈ (k, n).1 :: List.map Prod.fst rest from by
              rw [List.mem_cons]
              rintro (e | e)
              · exact h (e ▸ rfl)
              · exact h2 e)]

theorem keysOf_bumpFold (seq : List Str) (d : List (Str × Nat)) :
    keysOf (bumpFold d seq)
      = seq.foldl (fun ks r => if r ∈ ks then ks else ks ++ [r]) (keysOf d) := by
  induction seq generalizing d with
  | nil => rfl
  | cons r rest ih =>
    unfold bumpFold at *
    rw [List.foldl_cons, List.foldl_cons, ih (bump r d), bump_keys]

theorem nodup_foldKeys (seq : List Str) :
    ∀ acc : List Str, acc.Nodup →
      (seq.foldl (fun ks r => if r ∈ ks then ks else ks ++ [r]) acc).Nodup := by
  induction seq with
  | nil => exact fun acc h => h
  | cons r rest ih =>
    intro acc h
    rw [List.foldl_cons]
    apply ih
    by_cases hr : r ∈ acc
    · rwa [if_pos hr]
    · rw [if_neg hr]
      exact List.nodup_append.mpr
        ⟨h, List.nodup_singleton r, List.disjoint_singleton.mpr hr⟩

theorem foldKeys_acc_sublist (seq : List Str) :
    ∀ acc : List Str,
      acc.Sublist (seq.foldl (fun ks r => if r ∈ ks then ks else ks ++ [r]) acc) := by
  induction seq with
  | nil => exact fun acc => List.Sublist.refl acc
  | cons r rest ih =>
    intro acc
    rw [List.foldl_cons]
    refine List.Sublist.trans ?_ (ih _)
    by_cases hr : r ∈ acc
    · rw [if_pos hr]
    · rw [if_neg hr]
      exact List.sublist_append_left acc [r]

theorem mem_foldKeys (seq : List Str) :
    ∀ (acc : List Str) (r : Str),
      (r ∈ seq.foldl (fun ks x => if x ∈ ks then ks else ks ++ [x]) acc
        ↔ r ∈ acc ∨ r ∈ seq) := by
  induction seq with
  | nil => simp
  | cons x rest ih =>
    intro acc r
    rw [List.foldl_cons, ih]
    by_cases hx : x ∈ acc
    · rw [if_pos hx, List.mem_cons]
      constructor
      · tauto
      · rintro (h | h | h)
        · exact Or.inl h
        · exact Or.inl (h ▸ hx)
        · exact Or.inr h
    · rw [if_neg hx, List.mem_append, List.mem_singleton, List.mem_cons]
      tauto

/-- An element already recorded stays in front of a later distinct one. -/
theorem foldKeys_pair_of_mem (b : Str) :
    ∀ (seq acc : List Str) (a : Str), a ∈ acc → b ∉ acc → b ∈ seq →
      [a, b].Sublist (seq.foldl (fun ks r => if r ∈ ks then ks else ks ++ [r]) acc) := by
  intro seq
  induction seq with
  | nil =>
    intro acc a _ _ hb
    cases hb
  | cons r rest ih =>
    intro acc a ha hbn hb
    rw [List.foldl_cons]
    by_cases hr : r ∈ acc
    · rw [if_pos hr]
      have hbr : b ≠ r := fun e => hbn (e ▸ hr)
      refine ih acc a ha hbn ?_
      rcases List.mem_cons.mp hb with h | h
      · exact absurd h hbr
      · exact h
    · rw [if_neg hr]
      by_cases hbr : b = r
      · subst hbr
        refine List.Sublist.trans ?_ (foldKeys_acc_sublist rest (acc ++ [b]))
        exact List.Sublist.append (List.singleton_sublist.mpr ha)
          (List.Sublist.refl [b])
      · have hb' : b ∈ rest := by
          rcases List.mem_cons.mp hb with h | h
          · exact absurd h hbr
          · exact h
        exact ih (acc ++ [r]) a (List.mem_append_left _ ha)
          (by simp [List.mem_append, hbn, hbr]) hb'

/-- Two fresh elements are recorded in the order of their first occurrences. -/
theorem foldKeys_pair_of_idx (a b : Str) :
    ∀ (seq acc : List Str), a ∉ acc → b ∉ acc → a ∈ seq → b ∈ seq →
      idxOf a seq < idxOf b seq →
      [a, b].Sublist (seq.foldl (fun ks r => if r ∈ ks then ks else ks ++ [r]) acc) := by
  intro seq
  induction seq with
  | nil =>
    intro acc _ _ ha
    cases ha
  | cons r rest ih =>
    intro acc han hbn ha hb hidx
    rw [List.foldl_cons]
    by_cases har : a = r
    · subst har
      have hba : b ≠ a := by
        intro e
        rw [e] at hidx
        exact lt_irrefl _ hidx
      have hb' : b ∈ rest := by
        rcases List.mem_cons.mp hb with h | h
        · exact absurd h hba
        · exact h
      rw [if_neg han]
      exact foldKeys_pair_of_mem b rest (acc ++ [a]) a
        (List.mem_append_right _ (List.mem_cons_self a []))
        (by simp [List.mem_append, hbn, hba]) hb'
    · have hbr : b ≠ r := by
        intro e
        subst e
        rw [show idxOf b (b :: rest) = 0 from by simp [idxOf]] at hidx
        exact Nat.not_lt_zero _ hidx
      have ha' : a ∈ rest := by
        rcases List.mem_cons.mp ha with h | h
        · exact absurd h har
        · exact h
      have hb' : b ∈ rest := by
        rcases List.mem_cons.mp hb with h | h
        · exact absurd h hbr
        · exact h
      have hidx' : idxOf a rest < idxOf b rest := by
        unfold idxOf at hidx
        rw [if_neg (fun e => har e.symm), if_neg (fun e => hbr e.symm)] at hidx
        omega
      by_cases hr : r ∈ acc
      · rw [if_pos hr]
        exact ih acc han hbn ha' hb' hidx'
      · rw [if_neg hr]
        exact ih (acc ++ [r]) (by simp [List.mem_append, han, har])
          (by simp [List.mem_append, hbn, hbr]) ha' hb' hidx'

theorem step1_ebt_none (s : AnalyzeState) (l : Str)
    (hp : parseFlat (strip l) = none) :
    (step1 s l).errorsByType = s.errorsByType := by
  unfold step1
  rw [hp]

theorem step1_ebt_some (s : AnalyzeState) (l : Str) (fp : Str)
    (g : Str × Str × Str × Str × Str) (hp : parseFlat (strip l) = some (fp, g)) :
    (step1 s l).errorsByType = bump g.2.2.2.2 s.errorsByType := by
  unfold step1
  rw [hp]
  exact accumulate_errorsByType s fp g

/-- The rule dictionary is the fold of the parsed rule sequence. -/
theorem analyze1_ebt_aux (ls : List Str) :
    ∀ s : AnalyzeState,
      (ls.foldl step1 s).errorsByType = bumpFold s.errorsByType (rulesSeq1 ls) := by
  induction ls with
  | nil => exact fun s => rfl
  | cons l rest ih =>
    intro s
    rw [List.foldl_cons, ih (step1 s l)]
    unfold rulesSeq1
    rw [List.filterMap_cons]
    cases hp : parseFlat (strip l) with
    | none =>
      rw [step1_ebt_none s l hp]
      rfl
    | some g =>
      obtain ⟨fp, g'⟩ := g
      rw [step1_ebt_some s l fp g' hp]
      rfl

theorem analyze1_ebt (ls : List Str) :
    (analyze1 ls).errorsByType = bumpFold [] (rulesSeq1 ls) :=
  analyze1_ebt_aux ls init1

/-- With distinct keys, the stored pair is what `getOrZero` reads back. -/
theorem getOrZero_mem (d : List (Str × Nat)) (p : Str × Nat)
    (hnd : (keysOf d).Nodup) (hm : p ∈ d) : getOrZero d p.1 = p.2 := by
  induction d with
  | nil => cases hm
  | cons q rest ih =>
    obtain ⟨k, n⟩ := q
    simp only [keysOf, List.map_cons, List.nodup_cons] at hnd
    rcases List.mem_cons.mp hm with h | h
    · subst h
      simp [getOrZero]
    · have hk : k ≠ p.1 := by
        intro e
        exact hnd.1 (e ▸ List.mem_map_of_mem Prod.fst h)
      have := ih (by
        unfold keysOf
        exact hnd.2) h
      simpa [getOrZero, hk] using this

/-- A key-level pair sublist lifts to a pair of stored entries. -/
theorem pair_sublist_of_keys (r1 r2 : Str) (d : List (Str × Nat))
    (h : [r1, r2].Sublist (keysOf d)) :
    ∃ p q : Str × Nat, p.1 = r1 ∧ q.1 = r2 ∧ [p, q].Sublist d := by
  unfold keysOf at h
  rw [List.sublist_map_iff] at h
  obtain ⟨l', hsub, hmap⟩ := h
  match l', hmap with
  | [p, q], hmap =>
    rw [List.map_cons, List.map_cons, List.map_nil] at hmap
    injection hmap with h1 hmap
    injection hmap with h2 _
    exact ⟨p, q, h1.symm, h2.symm, hsub⟩

/-- A pair sublist of a duplicate-free list separates the first indices. -/
theorem idxOf_lt_of_pair (r1 r2 : Str) (ks : List Str)
    (hnd : ks.Nodup) (h : [r1, r2].Sublist ks) :
    idxOf r1 ks < idxOf r2 ks := by
  induction ks with
  | nil => simp at h
  | cons k t ih =>
    rw [List.nodup_cons] at hnd
    cases h with
    | cons _ h' =>
      have h1 : r1 ∈ t := h'.subset (List.mem_cons_self _ _)
      have h2 : r2 ∈ t := h'.subset (List.mem_cons_of_mem _ (List.mem_cons_self _ _))
      have hk1 : ¬k = r1 := fun e => hnd.1 (e ▸ h1)
      have hk2 : ¬k = r2 := fun e => hnd.1 (e ▸ h2)
      show (if k = r1 then 0 else idxOf r1 t + 1)
        < (if k = r2 then 0 else idxOf r2 t + 1)
      rw [if_neg hk1, if_neg hk2]
      exact Nat.succ_lt_succ (ih hnd.2 h')
    | cons₂ _ h' =>
      have h2 : r2 ∈ t := List.singleton_sublist.mp h'
      have hne : ¬r1 = r2 := fun e => hnd.1 (e ▸ h2)
      show (if r1 = r1 then 0 else idxOf r1 t + 1)
        < (if r1 = r2 then 0 else idxOf r2 t + 1)
      rw [if_pos rfl, if_neg hne]
      omega

/-- `idxOf` separates distinct members. -/
theorem idxOf_inj (r1 r2 : Str) (ks : List Str) (h1 : r1 ∈ ks) (h2 : r2 ∈ ks)
    (he : idxOf r1 ks = idxOf r2 ks) : r1 = r2 := by
  induction ks with
  | nil => cases h1
  | cons k t ih =>
    unfold idxOf at he
    by_cases e1 : k = r1 <;> by_cases e2 : k = r2
    · exact e1 ▸ e2
    · rw [if_pos e1, if_neg e2] at he
      exact absurd he.symm (Nat.succ_ne_zero _)
    · rw [if_neg e1, if_pos e2] at he
      exact absurd he (Nat.succ_ne_zero _)
    · rw [if_neg e1, if_neg e2] at he
      have h1' : r1 ∈ t := by
        rcases List.mem_cons.mp h1 with h | h
        · exact absurd h.symm e1
        · exact h
      have h2' : r2 ∈ t := by
        rcases List.mem_cons.mp h2 with h | h
        · exact absurd h.symm e2
        · exact h
      exact ih h1' h2' (Nat.succ_injective he)

/-- C4: the descending rule ranking is a stable sort.  For any input and any
two distinct parsed rules with equal final counts, the order of the two
rules in the ranked list (`sorted(..., key=count, reverse=True)`) agrees
exactly with the order of their first occurrences in the parsed input. -/
theorem c4_ranking_stable (ls : List Str) (r1 r2 : Str)
    (h1 : r1 ∈ rulesSeq1 ls) (h2 : r2 ∈ rulesSeq1 ls) (hne : r1 ≠ r2)
    (hc : getOrZero (analyze1 ls).errorsByType r1
        = getOrZero (analyze1 ls).errorsByType r2) :
    (idxOf r1 (keysOf (sortDesc (analyze1 ls).errorsByType))
      < idxOf r2 (keysOf (sortDesc (analyze1 ls).errorsByType)))
    ↔ idxOf r1 (rulesSeq1 ls) < idxOf r2 (rulesSeq1 ls) := by
  have hkeys : keysOf (analyze1 ls).errorsByType = firstOccs (rulesSeq1 ls) := by
    rw [analyze1_ebt, keysOf_bumpFold]
    rfl
  have hnd : (keysOf (analyze1 ls).errorsByType).Nodup := by
    rw [hkeys]
    exact nodup_foldKeys (rulesSeq1 ls) [] List.nodup_nil
  have hndS : (keysOf (sortDesc (analyze1 ls).errorsByType)).Nodup :=
    (((sortDesc_perm (analyze1 ls).errorsByType).map Prod.fst).nodup_iff).mpr hnd
  have main : ∀ a b : Str, a ∈ rulesSeq1 ls → b ∈ rulesSeq1 ls →
      getOrZero (analyze1 ls).errorsByType a
        = getOrZero (analyze1 ls).errorsByType b →
      idxOf a (rulesSeq1 ls) < idxOf b (rulesSeq1 ls) →
      idxOf a (keysOf (sortDesc (analyze1 ls).errorsByType))
        < idxOf b (keysOf (sortDesc (analyze1 ls).errorsByType)) := by
    intro a b ha hb hcc hidx
    have hpairK : [a, b].Sublist (keysOf (analyze1 ls).errorsByType) := by
      rw [hkeys]
      exact foldKeys_pair_of_idx a b (rulesSeq1 ls) []
        (List.not_mem_nil a) (List.not_mem_nil b) ha hb hidx
    obtain ⟨p, q, hp1, hq1, hpq⟩ :=
      pair_sublist_of_keys a b (analyze1 ls).errorsByType hpairK
    have hp2 : getOrZero (analyze1 ls).errorsByType p.1 = p.2 :=
      getOrZero_mem _ p hnd (hpq.subset (List.mem_cons_self _ _))
    have hq2 : getOrZero (analyze1 ls).errorsByType q.1 = q.2 :=
      getOrZero_mem _ q hnd
        (hpq.subset (List.mem_cons_of_mem _ (List.mem_cons_self _ _)))
    have heq : p.2 = q.2 := by
      rw [← hp2, ← hq2, hp1, hq1]
      exact hcc
    have hsorted := sortDesc_stable p q (analyze1 ls).errorsByType heq hpq
    have hmap : [a, b].Sublist (keysOf (sortDesc (analyze1 ls).errorsByType)) := by
      have hm := hsorted.map Prod.fst
      rw [List.map_cons, List.map_cons, List.map_nil, hp1, hq1] at hm
      exact hm
    exact idxOf_lt_of_pair a b _ hndS hmap
  constructor
  · intro h
    rcases Nat.lt_trichotomy (idxOf r1 (rulesSeq1 ls)) (idxOf r2 (rulesSeq1 ls))
      with ht | ht | ht
    · exact ht
    · exact absurd (idxOf_inj r1 r2 _ h1 h2 ht) hne
    · exact absurd h (Nat.lt_asymm (main r2 r1 h2 h1 hc.symm ht))
  · exact main r1 r2 h1 h2 hc

/-- C4 witness: two concrete rules with equal counts keep their input order
in the ranked list. -/
theorem c4_witness :
    (idxOf "@a/b".toList (keysOf (sortDesc (analyze1 c4Lines).errorsByType))
      < idxOf "@c/d".toList (keysOf (sortDesc (analyze1 c4Lines).errorsByType)))
    ↔ idxOf "@a/b".toList (rulesSeq1 c4Lines)
      < idxOf "@c/d".toList (rulesSeq1 c4Lines) :=
  c4_ranking_stable c4Lines "@a/b".toList "@c/d".toList
    (by decide) (by decide) (by decide) (by decide)

end LintAnalysis
